import Mathlib

/-!
Verification of the ManifoldMind native numeric core
(`lib/src/main/cpp/manifold_operators.cpp`).

The file embeds the three scalar diagnostics shallowly:

* `calculate_resonance` : the ε-perturbed cosine similarity, over exact
  real arithmetic (the square roots force `ℝ`);
* `calculate_coherence` : clamped mean absolute magnitude, over `ℚ`
  (the source has no irrational operation, so the embedding stays
  computable);
* `calculate_delta_i`   : one minus the mean absolute successive
  difference, over `ℚ`;
* `operator7Resonance`  : the JNI boundary wrapper, with the
  out-of-range read on the centroid buffer modelled as `none`.

Spec-side formulas (`dotProduct`, `norm`, `meanAbs`, `specSuccDiffSum`)
are written from the specification text and compared with the embedded
code by theorem.
-/

namespace ManifoldMind

/-- The literal `1e-9f` added to the denominator of the resonance score. -/
noncomputable def eps : ℝ := 1e-9

/-- One iteration of the single accumulation loop of `calculate_resonance`:
the state is `(dot_product, norm_a, norm_b)` and `p` the current pair
`(input_embedding[i], manifold_centroid[i])`. -/
def resStep (s : ℝ × ℝ × ℝ) (p : ℝ × ℝ) : ℝ × ℝ × ℝ :=
  (s.1 + p.1 * p.2, s.2.1 + p.1 * p.1, s.2.2 + p.2 * p.2)

/-- Embedding of `calculate_resonance` (manifold_operators.cpp, lines 9-24):
guard returning `0.0` on length mismatch or empty input, a single pass
accumulating the dot product and both squared norms, then the ε-perturbed
cosine quotient. -/
noncomputable def calculate_resonance (input_embedding manifold_centroid : List ℝ) : ℝ :=
  if input_embedding.length ≠ manifold_centroid.length ∨ input_embedding = [] then 0
  else
    let s := (input_embedding.zip manifold_centroid).foldl resStep (0, 0, 0)
    s.1 / (Real.sqrt s.2.1 * Real.sqrt s.2.2 + eps)

/-- Spec-side dot product `dot(a,b)`. -/
def dotProduct (a b : List ℝ) : ℝ := (List.zipWith (fun x y => x * y) a b).sum

/-- Spec-side squared Euclidean norm. -/
def normSq (v : List ℝ) : ℝ := (v.map (fun x => x * x)).sum

/-- Spec-side Euclidean norm `‖v‖`. -/
noncomputable def norm (v : List ℝ) : ℝ := Real.sqrt (normSq v)

/-- Embedding of `calculate_coherence` (lines 28-37): `0.0` on empty input,
otherwise the running sum of absolute values divided by the size, capped
at `1.0`. -/
def calculate_coherence (embedding : List ℚ) : ℚ :=
  if embedding = [] then 0
  else min 1 ((embedding.foldl (fun s val => s + |val|) 0) / embedding.length)

/-- Spec-side mean absolute magnitude `mean(|v_i|)`. -/
def meanAbs (v : List ℚ) : ℚ := (v.map (fun x => |x|)).sum / v.length

/-- The loop of `calculate_delta_i`: `Σ |h[i] - h[i-1]|` for `i = 1..n-1`. -/
def sumAbsDiff : List ℚ → ℚ
  | x :: y :: t => |y - x| + sumAbsDiff (y :: t)
  | _ => 0

/-- Embedding of `calculate_delta_i` (lines 40-47): `1.0` for histories of
fewer than two elements, otherwise one minus the mean absolute successive
difference (the divisor `history_resonance.size() - 1` is a truncated
natural subtraction, as in the source). -/
def calculate_delta_i (history_resonance : List ℚ) : ℚ :=
  if history_resonance.length < 2 then 1
  else 1 - sumAbsDiff history_resonance / ((history_resonance.length - 1 : ℕ) : ℚ)

/-- Spec-side sum of absolute successive differences,
`Σ |h[i] - h[i-1]|` for `i = 1..n-1`, written over the tail. -/
def specSuccDiffSum (h : List ℚ) : ℚ :=
  (List.zipWith (fun x y => |x - y|) h.tail h).sum

/-- Embedding of `Java_com_manifold_app_NativeLib_operator7Resonance`
(lines 51-65).  The wrapper reads `len = GetArrayLength(j_embedding)` and
copies `len` elements out of **both** buffers; when the centroid array is
shorter than the embedding array this is an out-of-range read, modelled
as `none`.  Otherwise both internal vectors have length `len`, i.e. the
centroid is truncated to the embedding's length. -/
noncomputable def operator7Resonance (j_embedding j_centroid : List ℝ) : Option ℝ :=
  if j_centroid.length < j_embedding.length then none
  else some (calculate_resonance j_embedding (j_centroid.take j_embedding.length))

/-! ### Basic lemmas about the accumulation loops -/

theorem foldl_resStep (a b : List ℝ) (h : a.length = b.length) (d na nb : ℝ) :
    (a.zip b).foldl resStep (d, na, nb)
      = (d + dotProduct a b, na + normSq a, nb + normSq b) := by
  induction a generalizing b d na nb with
  | nil =>
    cases b with
    | nil => simp [dotProduct, normSq]
    | cons y t => simp at h
  | cons x a ih =>
    cases b with
    | nil => simp at h
    | cons y t =>
      simp only [List.length_cons, Nat.succ_inj] at h
      simp only [List.zip_cons_cons, List.foldl_cons, resStep]
      rw [ih t h]
      simp only [dotProduct, normSq, List.zipWith_cons_cons, List.map_cons, List.sum_cons]
      refine Prod.ext ?_ (Prod.ext ?_ ?_) <;> simp <;> ring

theorem foldl_absSum (v : List ℚ) (c : ℚ) :
    v.foldl (fun s val => s + |val|) c = c + (v.map (fun x => |x|)).sum := by
  induction v generalizing c with
  | nil => simp
  | cons x t ih => simp [ih, add_assoc]

theorem sumAbsDiff_eq_spec (h : List ℚ) : sumAbsDiff h = specSuccDiffSum h := by
  induction h with
  | nil => simp [sumAbsDiff, specSuccDiffSum]
  | cons x t ih =>
    cases t with
    | nil => simp [sumAbsDiff, specSuccDiffSum]
    | cons y u =>
      simp only [sumAbsDiff, specSuccDiffSum, List.tail_cons, List.zipWith_cons_cons,
        List.sum_cons] at *
      rw [ih, abs_sub_comm]

theorem sumAbsDiff_nonneg (h : List ℚ) : 0 ≤ sumAbsDiff h := by
  induction h with
  | nil => simp [sumAbsDiff]
  | cons x t ih =>
    cases t with
    | nil => simp [sumAbsDiff]
    | cons y u =>
      simp only [sumAbsDiff] at *
      positivity

theorem normSq_nonneg (v : List ℝ) : 0 ≤ normSq v := by
  apply List.sum_nonneg
  intro x hx
  simp only [List.mem_map] at hx
  obtain ⟨y, _, rfl⟩ := hx
  exact mul_self_nonneg y

theorem eps_pos : (0 : ℝ) < eps := by norm_num [eps]

theorem dotProduct_cons (x y : ℝ) (a b : List ℝ) :
    dotProduct (x :: a) (y :: b) = x * y + dotProduct a b := by
  simp [dotProduct]

theorem normSq_cons (x : ℝ) (v : List ℝ) : normSq (x :: v) = x * x + normSq v := by
  simp [normSq]

/-- On well-formed input the embedded single-pass loop yields exactly the
spec formula `dot(a,b) / (‖a‖·‖b‖ + ε)`. -/
theorem resonance_formula (a b : List ℝ) (hlen : a.length = b.length) (hne : a ≠ []) :
    calculate_resonance a b = dotProduct a b / (norm a * norm b + eps) := by
  unfold calculate_resonance
  rw [if_neg (by simp [hlen, hne])]
  rw [foldl_resStep a b hlen 0 0 0]
  simp [norm]

/-- The guard of `calculate_resonance`: any malformed input returns `0`. -/
theorem resonance_default (a b : List ℝ)
    (h : a.length ≠ b.length ∨ a = [] ∨ b = []) :
    calculate_resonance a b = 0 := by
  rcases h with h | h | h
  · simp [calculate_resonance, h]
  · simp [calculate_resonance, h]
  · rcases eq_or_ne a [] with ha | ha
    · simp [calculate_resonance, ha]
    · have hl : a.length ≠ b.length := by
        subst h
        simpa using fun hc => ha (List.length_eq_zero.mp hc)
      simp [calculate_resonance, hl]

theorem dotProduct_comm (a b : List ℝ) : dotProduct a b = dotProduct b a := by
  unfold dotProduct
  rw [List.zipWith_comm_of_comm _ mul_comm]

/-- C1: for equal-length non-empty vectors, `calculate_resonance` returns
`dot(a,b) / (‖a‖·‖b‖ + 1e-9)`, the ε-perturbed cosine similarity, the three
sums being accumulated in a single pass over the indices. -/
theorem C1_resonance_is_eps_cosine (a b : List ℝ)
    (hlen : a.length = b.length) (hne : a ≠ []) :
    calculate_resonance a b = dotProduct a b / (norm a * norm b + eps) :=
  resonance_formula a b hlen hne

/-- Witness for C1 at `a = [1, 2]`, `b = [3, 4]`. -/
theorem C1_witness :
    ([1, 2] : List ℝ).length = ([3, 4] : List ℝ).length ∧ ([1, 2] : List ℝ) ≠ [] ∧
      calculate_resonance [1, 2] [3, 4]
        = dotProduct [1, 2] [3, 4] / (norm [1, 2] * norm [3, 4] + eps) :=
  ⟨rfl, by simp, C1_resonance_is_eps_cosine [1, 2] [3, 4] rfl (by simp)⟩

/-- C2: mismatched lengths, or an empty argument, make `calculate_resonance`
return exactly `0.0` (the total Lean function cannot fail). -/
theorem C2_resonance_safe_default (a b : List ℝ)
    (h : a.length ≠ b.length ∨ a = [] ∨ b = []) :
    calculate_resonance a b = 0 :=
  resonance_default a b h

/-- Witness for C2 at the spec's own example `resonance([1,2],[1,2,3])`. -/
theorem C2_witness :
    (([1, 2] : List ℝ).length ≠ ([1, 2, 3] : List ℝ).length ∨ ([1, 2] : List ℝ) = [] ∨
        ([1, 2, 3] : List ℝ) = []) ∧
      calculate_resonance [1, 2] [1, 2, 3] = 0 :=
  ⟨Or.inl (by simp), C2_resonance_safe_default [1, 2] [1, 2, 3] (Or.inl (by simp))⟩

/-- C8: resonance is symmetric in its two arguments on equal-length input. -/
theorem C8_resonance_symm (a b : List ℝ) (hlen : a.length = b.length) :
    calculate_resonance a b = calculate_resonance b a := by
  rcases eq_or_ne a [] with ha | ha
  · have hb : b = [] := List.length_eq_zero.mp (by rw [← hlen, ha]; rfl)
    subst ha; subst hb; rfl
  · have hb : b ≠ [] := fun hc => ha (List.length_eq_zero.mp (by rw [hlen, hc]; rfl))
    rw [resonance_formula a b hlen ha, resonance_formula b a hlen.symm hb,
      dotProduct_comm, mul_comm (norm a) (norm b)]

/-- Witness for C8 at `a = [1, 2]`, `b = [3, 4]`. -/
theorem C8_witness :
    ([1, 2] : List ℝ).length = ([3, 4] : List ℝ).length ∧
      calculate_resonance [1, 2] [3, 4] = calculate_resonance [3, 4] [1, 2] :=
  ⟨rfl, C8_resonance_symm [1, 2] [3, 4] rfl⟩

theorem dotProduct_replicate_zero (n : ℕ) (b : List ℝ) :
    dotProduct (List.replicate n 0) b = 0 := by
  induction b generalizing n with
  | nil => simp [dotProduct]
  | cons y t ih =>
    cases n with
    | zero => simp [dotProduct]
    | succ m =>
      rw [List.replicate_succ, dotProduct_cons, ih m]
      ring

/-- C10: against a zero vector of matching (non-zero) length, resonance is
exactly `0.0`: the numerator vanishes and the ε term keeps the denominator
positive, so the quotient is the same value as the safe default. -/
theorem C10_resonance_zero_vector (n : ℕ) (b : List ℝ)
    (hlen : b.length = n) (hne : b ≠ []) :
    calculate_resonance (List.replicate n 0) b = 0 := by
  have hrep : (List.replicate n (0 : ℝ)) ≠ [] := by
    have hn : n ≠ 0 := by
      rw [← hlen]
      simpa using fun hc => hne (List.length_eq_zero.mp hc)
    simp [hn]
  rw [resonance_formula _ b (by simp [hlen]) hrep, dotProduct_replicate_zero, zero_div]

/-- Witness for C10 at `n = 2`, `b = [3, 4]`. -/
theorem C10_witness :
    ([3, 4] : List ℝ).length = 2 ∧ ([3, 4] : List ℝ) ≠ [] ∧
      calculate_resonance (List.replicate 2 0) [3, 4] = 0 :=
  ⟨rfl, by simp, C10_resonance_zero_vector 2 [3, 4] rfl (by simp)⟩

theorem absSum_nonneg (v : List ℚ) : 0 ≤ (v.map (fun x => |x|)).sum := by
  apply List.sum_nonneg
  intro x hx
  obtain ⟨y, _, rfl⟩ := List.mem_map.mp hx
  exact abs_nonneg y

/-- C4: `calculate_coherence` is `min(1, mean(|v_i|))` on non-empty input
and exactly `0.0` on the empty vector. -/
theorem C4_coherence_clamped_mean (v : List ℚ) :
    calculate_coherence v = if v = [] then 0 else min 1 (meanAbs v) := by
  rcases eq_or_ne v [] with hv | hv
  · simp [calculate_coherence, hv]
  · simp [calculate_coherence, hv, meanAbs, foldl_absSum]

/-- C5: the coherence score always lies in `[0, 1]`, empty input included. -/
theorem C5_coherence_range (v : List ℚ) :
    0 ≤ calculate_coherence v ∧ calculate_coherence v ≤ 1 := by
  rcases eq_or_ne v [] with hv | hv
  · simp [calculate_coherence, hv]
  · constructor
    · simp only [calculate_coherence, if_neg hv, le_min_iff]
      refine ⟨zero_le_one, ?_⟩
      rw [foldl_absSum]
      exact div_nonneg (by simpa using absSum_nonneg v) (Nat.cast_nonneg _)
    · simp only [calculate_coherence, if_neg hv]
      exact min_le_left 1 _

theorem length_sub_one_cast (n : ℕ) (hn : 2 ≤ n) : ((n - 1 : ℕ) : ℚ) = (n : ℚ) - 1 := by
  rw [Nat.cast_sub (by omega), Nat.cast_one]

/-- C6: `calculate_delta_i` is `1 − (Σ|h[i]-h[i-1]|)/(n-1)` for `n ≥ 2` and
exactly `1.0` for shorter histories. -/
theorem C6_delta_i_formula (h : List ℚ) :
    calculate_delta_i h =
      if h.length < 2 then 1
      else 1 - specSuccDiffSum h / ((h.length : ℚ) - 1) := by
  unfold calculate_delta_i
  by_cases hl : h.length < 2
  · simp [hl]
  · rw [if_neg hl, if_neg hl, sumAbsDiff_eq_spec, length_sub_one_cast h.length (by omega)]

theorem sumAbsDiff_cons_cons (x y : ℚ) (t : List ℚ) :
    sumAbsDiff (x :: y :: t) = |y - x| + sumAbsDiff (y :: t) := rfl

theorem sumAbsDiff_eq_zero_iff (h : List ℚ) :
    sumAbsDiff h = 0 ↔ List.Chain' (fun x y => y - x = 0) h := by
  induction h with
  | nil => simp [sumAbsDiff]
  | cons x t ih =>
    cases t with
    | nil => simp [sumAbsDiff]
    | cons y u =>
      rw [List.chain'_cons, ← ih, sumAbsDiff_cons_cons,
        add_eq_zero_iff_of_nonneg (abs_nonneg _) (sumAbsDiff_nonneg _), abs_eq_zero]

/-- C7: the stability score is bounded above by `1.0`, attains `1.0` exactly
when the history is short or every successive difference is zero, and is not
clamped below: an erratic history drives it strictly below `0`. -/
theorem C7_delta_i_unclamped :
    (∀ h : List ℚ, calculate_delta_i h ≤ 1) ∧
      (∀ h : List ℚ, calculate_delta_i h = 1 ↔
        h.length < 2 ∨ List.Chain' (fun x y => y - x = 0) h) ∧
      (∃ h : List ℚ, calculate_delta_i h < 0) := by
  refine ⟨?_, ?_, ?_⟩
  · intro h
    unfold calculate_delta_i
    by_cases hl : h.length < 2
    · simp [hl]
    · rw [if_neg hl]
      have : 0 ≤ sumAbsDiff h / ((h.length - 1 : ℕ) : ℚ) :=
        div_nonneg (sumAbsDiff_nonneg h) (Nat.cast_nonneg _)
      linarith
  · intro h
    unfold calculate_delta_i
    by_cases hl : h.length < 2
    · simp [hl]
    · have hden : ((h.length - 1 : ℕ) : ℚ) ≠ 0 := Nat.cast_ne_zero.mpr (by omega)
      rw [if_neg hl, sub_eq_self, div_eq_zero_iff, or_iff_left hden,
        sumAbsDiff_eq_zero_iff, or_iff_right hl]
  · exact ⟨[0, 2], by norm_num [calculate_delta_i, sumAbsDiff]⟩

theorem cauchy_schwarz_step (x y A B D : ℝ) (hA : 0 ≤ A) (hB : 0 ≤ B)
    (hD : D ^ 2 ≤ A * B) :
    (x * y + D) ^ 2 ≤ (x * x + A) * (y * y + B) := by
  have hs : 0 ≤ Real.sqrt A := Real.sqrt_nonneg A
  have ht : 0 ≤ Real.sqrt B := Real.sqrt_nonneg B
  have hsA : Real.sqrt A ^ 2 = A := Real.sq_sqrt hA
  have htB : Real.sqrt B ^ 2 = B := Real.sq_sqrt hB
  have hst : |D| ≤ Real.sqrt A * Real.sqrt B := by
    have h1 : Real.sqrt (D ^ 2) ≤ Real.sqrt (A * B) := Real.sqrt_le_sqrt hD
    rwa [Real.sqrt_sq_eq_abs, ← hsA, ← htB, ← mul_pow,
      Real.sqrt_sq (mul_nonneg hs ht)] at h1
  obtain ⟨hD1, hD2⟩ := abs_le.mp hst
  have hDsq : D ^ 2 ≤ (Real.sqrt A * Real.sqrt B) ^ 2 := by
    rw [← sq_abs D]
    exact pow_le_pow_left₀ (abs_nonneg D) hst 2
  rw [← hsA, ← htB]
  rcases le_or_lt 0 (x * y) with hxy | hxy
  · have hmul : 2 * (x * y) * D ≤ 2 * (x * y) * (Real.sqrt A * Real.sqrt B) :=
      mul_le_mul_of_nonneg_left hD2 (by linarith)
    nlinarith [sq_nonneg (x * Real.sqrt B - y * Real.sqrt A)]
  · have hmul : 2 * (x * y) * D ≤ 2 * (x * y) * (-(Real.sqrt A * Real.sqrt B)) :=
      mul_le_mul_of_nonpos_left hD1 (by linarith)
    nlinarith [sq_nonneg (x * Real.sqrt B + y * Real.sqrt A)]

/-- Cauchy–Schwarz for the list dot product: `dot(a,b)² ≤ ‖a‖²·‖b‖²`. -/
theorem dotProduct_sq_le (a b : List ℝ) :
    dotProduct a b ^ 2 ≤ normSq a * normSq b := by
  induction a generalizing b with
  | nil => simp [dotProduct, normSq]
  | cons x a ih =>
    cases b with
    | nil => simp [dotProduct, normSq]
    | cons y t =>
      rw [dotProduct_cons, normSq_cons, normSq_cons]
      exact cauchy_schwarz_step x y (normSq a) (normSq t) (dotProduct a t)
        (normSq_nonneg a) (normSq_nonneg t) (ih t)

/-- C9: over exact real arithmetic the resonance score of well-formed input
lies in `[-1, 1]`: Cauchy–Schwarz bounds the numerator by `‖a‖·‖b‖`, which
the strictly positive ε makes smaller than the denominator. -/
theorem C9_resonance_in_unit_interval (a b : List ℝ)
    (hlen : a.length = b.length) (hne : a ≠ []) :
    -1 ≤ calculate_resonance a b ∧ calculate_resonance a b ≤ 1 := by
  rw [resonance_formula a b hlen hne]
  have hnn : 0 ≤ norm a * norm b := mul_nonneg (Real.sqrt_nonneg _) (Real.sqrt_nonneg _)
  have key : |dotProduct a b| ≤ norm a * norm b := by
    have h1 : Real.sqrt (dotProduct a b ^ 2) ≤ Real.sqrt (normSq a * normSq b) :=
      Real.sqrt_le_sqrt (dotProduct_sq_le a b)
    rwa [Real.sqrt_sq_eq_abs, Real.sqrt_mul (normSq_nonneg a)] at h1
  have hden : 0 < norm a * norm b + eps := by
    have := eps_pos
    linarith
  have habs : |dotProduct a b / (norm a * norm b + eps)| ≤ 1 := by
    rw [abs_div, abs_of_pos hden, div_le_one hden]
    have := eps_pos
    linarith
  exact abs_le.mp habs

/-- Witness for C9 at `a = [1]`, `b = [2]`. -/
theorem C9_witness :
    ([1] : List ℝ).length = ([2] : List ℝ).length ∧ ([1] : List ℝ) ≠ [] ∧
      -1 ≤ calculate_resonance [1] [2] ∧ calculate_resonance [1] [2] ≤ 1 :=
  ⟨rfl, by simp, C9_resonance_in_unit_interval [1] [2] rfl (by simp)⟩

/-- C3 (code bug): the boundary wrapper sizes **both** copies by the length
of `j_embedding`, so a shorter centroid array is read out of range (modelled
`none`), and a longer one is silently truncated and produces a non-default
score — it never returns the documented `0.0` default on mismatched
lengths. -/
theorem C3_boundary_reads_out_of_range :
    operator7Resonance [1, 1, 1] [1, 1] = none ∧
      operator7Resonance [1] [1, 5] ≠ some 0 := by
  refine ⟨by simp [operator7Resonance], ?_⟩
  have hres : calculate_resonance [1] [1] = 1 / (1 * 1 + eps) := by
    rw [resonance_formula [1] [1] rfl (by simp)]
    have h1 : dotProduct [1] [1] = (1 : ℝ) := by simp [dotProduct]
    have h2 : norm [1] = (1 : ℝ) := by simp [norm, normSq]
    rw [h1, h2]
  have hne : (1 : ℝ) / (1 * 1 + eps) ≠ 0 := by
    have := eps_pos
    apply div_ne_zero one_ne_zero
    linarith
  have htake : (([1, 5] : List ℝ).take ([1] : List ℝ).length) = [1] := rfl
  simp only [operator7Resonance]
  rw [if_neg (by simp), htake, hres]
  simp only [ne_eq, Option.some.injEq]
  exact hne

end ManifoldMind
